import Mathlib

/-!
# Verification of the stress-test dataset generator

Shallow embedding of `scripts/data_generator.py`: construction of random
connected components of entities, allocation of global entity IDs,
insertion of document nodes between linked entities, round-robin sharded
CSV writing, and the assembling main loop.

Randomness is modelled by passing the sequence of draws as an explicit
parameter (`draw : Nat → Nat` for `random.randint` / the multinomial
document-count sampler, a rational for the exponential size sampler).
Python dicts are modelled as association lists in insertion order, which
is exactly the order Python 3.7+ dict iteration follows.  Python `assert`
failures abort the run and are modelled by `Option`/flagged results.
-/

namespace DataGenerator

/-- Bounded conjunction over a list, used to state per-index properties
without binders (it unfolds to a finite conjunction on concrete input). -/
def allOf : List α → (α → Prop) → Prop
  | [], _ => True
  | a :: l, p => p a ∧ allOf l p

theorem allOf_iff {l : List α} {p : α → Prop} : allOf l p ↔ ∀ x ∈ l, p x := by
  induction l with
  | nil => simp [allOf]
  | cons a l ih => simp [allOf, ih]

/-! ### Decimal rendering (Python `str`/f-string formatting of integers) -/

/-- Little-endian decimal digits of `n`, with explicit fuel so that the
definition is structurally recursive and kernel-computable.  With fuel at
least `n` it agrees with `Nat.digits 10 n` (see `decDigits_eq_digits`). -/
def decDigits : Nat → Nat → List Nat
  | 0, _ => []
  | fuel + 1, n => if n = 0 then [] else n % 10 :: decDigits fuel (n / 10)

theorem decDigits_eq_digits :
    ∀ (fuel n : Nat), n ≤ fuel → decDigits fuel n = Nat.digits 10 n := by
  intro fuel
  induction fuel with
  | zero =>
    intro n hn
    interval_cases n
    simp [decDigits]
  | succ f ih =>
    intro n hn
    by_cases h0 : n = 0
    · simp [decDigits, h0]
    · have hpos : 0 < n := Nat.pos_of_ne_zero h0
      have hlt : n / 10 < n := Nat.div_lt_self hpos (by norm_num)
      rw [decDigits, if_neg h0, Nat.digits_def' (by norm_num : (1:ℕ) < 10) hpos,
        ih (n / 10) (by omega)]

/-- The decimal string for a natural number, exactly as Python's
`str`/f-string renders it (`0` renders as `"0"`). -/
def natDecimal (n : Nat) : String :=
  if n = 0 then "0" else String.mk ((decDigits n n).reverse.map Nat.digitChar)

/-- The decimal string for a Python integer. -/
def intDecimal (i : Int) : String :=
  if i < 0 then "-" ++ natDecimal i.natAbs else natDecimal i.toNat

theorem digitChar_injOn :
    ∀ a < 10, ∀ b < 10, Nat.digitChar a = Nat.digitChar b → a = b := by decide

theorem digits_map_digitChar_inj :
    ∀ l1 l2 : List Nat, (∀ d ∈ l1, d < 10) → (∀ d ∈ l2, d < 10) →
      l1.map Nat.digitChar = l2.map Nat.digitChar → l1 = l2 := by
  intro l1
  induction l1 with
  | nil =>
    intro l2 _ _ h
    cases l2 with
    | nil => rfl
    | cons b t => simp at h
  | cons a t ih =>
    intro l2 h1 h2 h
    cases l2 with
    | nil => simp at h
    | cons b t2 =>
      simp only [List.map_cons, List.cons.injEq] at h
      have ha : a = b := digitChar_injOn a (h1 a (by simp)) b (h2 b (by simp)) h.1
      have ht : t = t2 := ih t2 (fun d hd => h1 d (by simp [hd])) (fun d hd => h2 d (by simp [hd])) h.2
      rw [ha, ht]

theorem rev_map_digitChar_inj {l1 l2 : List Nat}
    (h1 : ∀ d ∈ l1, d < 10) (h2 : ∀ d ∈ l2, d < 10)
    (h : l1.reverse.map Nat.digitChar = l2.reverse.map Nat.digitChar) : l1 = l2 := by
  have : l1.reverse = l2.reverse :=
    digits_map_digitChar_inj l1.reverse l2.reverse
      (fun d hd => h1 d (by simpa using hd)) (fun d hd => h2 d (by simpa using hd)) h
  have := congrArg List.reverse this
  simpa using this

theorem natDecimal_eq_digits (n : Nat) :
    natDecimal n = if n = 0 then "0" else
      String.mk ((Nat.digits 10 n).reverse.map Nat.digitChar) := by
  unfold natDecimal
  rw [decDigits_eq_digits n n le_rfl]

theorem natDecimal_injective : Function.Injective natDecimal := by
  intro a b h
  rw [natDecimal_eq_digits, natDecimal_eq_digits] at h
  have key : ∀ m : Nat, m ≠ 0 →
      "0" ≠ String.mk ((Nat.digits 10 m).reverse.map Nat.digitChar) := by
    intro m hm hc
    have hdata : ['0'] = (Nat.digits 10 m).reverse.map Nat.digitChar := by
      have := congrArg String.data hc
      simpa using this
    have hdig : Nat.digits 10 m = [0] := by
      refine (rev_map_digitChar_inj ?_ ?_ ?_).symm
      · intro d hd; simp at hd; omega
      · intro d hd
        exact Nat.digits_lt_base (by norm_num) hd
      · exact hdata
    have : m = 0 := by
      have := Nat.ofDigits_digits 10 m
      rw [hdig] at this
      simpa [Nat.ofDigits] using this.symm
    exact hm this
  by_cases ha : a = 0 <;> by_cases hb : b = 0
  · rw [ha, hb]
  · rw [if_pos ha, if_neg hb] at h
    exact absurd h (key b hb)
  · rw [if_neg ha, if_pos hb] at h
    exact absurd h.symm (key a ha)
  · rw [if_neg ha, if_neg hb] at h
    have hdata := congrArg String.data h
    simp only at hdata
    have : Nat.digits 10 a = Nat.digits 10 b := by
      refine rev_map_digitChar_inj ?_ ?_ hdata
      · intro d hd
        exact Nat.digits_lt_base (by norm_num) hd
      · intro d hd
        exact Nat.digits_lt_base (by norm_num) hd
    exact Nat.digits.injective 10 this

/-! ### Entity and document identifiers (`make_entity_id`, `make_document_id`) -/

/-- `make_entity_id(node_id)`: the string `f"e-{node_id}"`. -/
def make_entity_id (node_id : Int) : String :=
  "e-" ++ intDecimal node_id

/-- `make_document_id(doc_index)`: the string `f"d-{doc_index}"`.  The
source asserts `doc_index >= 0`, and every call site passes a running
nonnegative counter, so the index is modelled as a natural number. -/
def make_document_id (doc_index : Nat) : String :=
  "d-" ++ natDecimal doc_index

theorem make_document_id_injective : Function.Injective make_document_id := by
  intro a b h
  unfold make_document_id at h
  have hdata := congrArg String.data h
  simp only [String.data_append] at hdata
  have : (natDecimal a).data = (natDecimal b).data :=
    List.append_cancel_left hdata
  apply natDecimal_injective
  cases hna : natDecimal a with
  | mk da =>
    cases hnb : natDecimal b with
    | mk db =>
      rw [hna, hnb] at this
      simp only at this
      rw [this]

/-! ### `make_connected_component` -/

/-- The adjacency dict built by `make_connected_component` for `n` nodes:
keys `0..n-1` in insertion order, node `0` (the seed) keeps its empty
list, and each node `i ≥ 1` appends the single drawn destination
`draw i`, where `draw` is the sequence of `random.randint(0, i-1)`
results. -/
def mcc_adj (n : Nat) (draw : Nat → Nat) : List (Nat × List Nat) :=
  (List.range n).map (fun i => (i, if i = 0 then [] else [draw i]))

/-- `make_connected_component(num_nodes)`; the precondition assert
`num_nodes > 0` is modelled by `none` (the assert aborts the run). -/
def make_connected_component (num_nodes : Int) (draw : Nat → Nat) :
    Option (List (Nat × List Nat)) :=
  if 0 < num_nodes then some (mcc_adj num_nodes.toNat draw) else none

/-! ### `assign_entity_ids` -/

/-- `assign_entity_ids(adj, offset)`: rebuilds the adjacency structure
with `make_entity_id(index + offset)` for every source and destination
index, while folding the running `max_node_id` (initially `-1`) over all
sources and destinations; returns the rebuilt structure and
`max_node_id + 1`.  The assert `offset >= 0` is modelled by `none`. -/
def assign_entity_ids (adj : List (Nat × List Nat)) (offset : Int) :
    Option (List (String × List String) × Int) :=
  if 0 ≤ offset then
    let r := adj.foldl
      (fun acc p =>
        let m1 : Int := max (p.1 : Int) acc.2
        let m2 : Int := p.2.foldl (fun m d => max (d : Int) m) m1
        (acc.1 ++ [(make_entity_id ((p.1 : Int) + offset),
          p.2.map (fun d => make_entity_id ((d : Int) + offset)))], m2))
      (([], -1) : List (String × List String) × Int)
    some (r.1, r.2 + 1)
  else none

/-! ### `insert_documents` -/

/-- The `(src, dst)` pairs visited by the nested
`for src, dsts in adj.items(): for d in dsts:` loops, in order. -/
def edge_list (adj : List (String × List String)) : List (String × String) :=
  adj.flatMap (fun p => p.2.map (fun d => (p.1, d)))

/-- The loop of `insert_documents` over the edges: `draw k` is the
multinomial document-count sample at the `k`-th edge, `cur` the running
document index.  For each of the `draw k` documents the loop appends the
link `(src, doc_id)` and then `(dst, doc_id)`.  A zero draw fails the
assert `num_docs > 0` and aborts (`none`). -/
def idoc_go (draw : Nat → Nat) :
    List (String × String) → Nat → Nat → Option (List (String × String) × Nat)
  | [], cur, _ => some ([], cur)
  | (s, d) :: es, cur, k =>
      if draw k = 0 then none
      else
        match idoc_go draw es (cur + draw k) (k + 1) with
        | none => none
        | some (rest, fin) =>
            some ((List.range (draw k)).flatMap
              (fun j => [(s, make_document_id (cur + j)),
                         (d, make_document_id (cur + j))]) ++ rest, fin)

/-- `insert_documents(adj, doc_id_offset)`; `doc_id_offset` is a natural
number (the source asserts it is nonnegative and every call site passes a
running counter starting at 0). -/
def insert_documents (adj : List (String × List String)) (doc_id_offset : Nat)
    (draw : Nat → Nat) : Option (List (String × String) × Nat) :=
  idoc_go draw (edge_list adj) doc_id_offset 0

/-- Total-function description of the loop of `insert_documents` when no
assert fires (proved equal to `idoc_go` under positive draws). -/
def idoc_core (draw : Nat → Nat) :
    List (String × String) → Nat → Nat → List (String × String) × Nat
  | [], cur, _ => ([], cur)
  | (s, d) :: es, cur, k =>
      let rest := idoc_core draw es (cur + draw k) (k + 1)
      ((List.range (draw k)).flatMap
        (fun j => [(s, make_document_id (cur + j)),
                   (d, make_document_id (cur + j))]) ++ rest.1, rest.2)

/-- Total number of documents drawn for the edges, the `k`-th edge
consuming draw index `k`. -/
def sumDraws (draw : Nat → Nat) : List (String × String) → Nat → Nat
  | [], _ => 0
  | _ :: es, k => draw k + sumDraws draw es (k + 1)

/-- The edge that the `t`-th allocated document (0-indexed from the start
of the loop) is inserted on. -/
def ownerEdge (draw : Nat → Nat) :
    List (String × String) → Nat → Nat → String × String
  | [], _, _ => ("", "")
  | e :: es, k, t => if t < draw k then e else ownerEdge draw es (k + 1) (t - draw k)

/-- The document-count distribution `[0, 0.3, 0.3, 0.2, 0.1, 0.1]`
passed to `np.random.multinomial` by `insert_documents`, as exact
rationals.  A single multinomial trial lands in bucket `i` with
probability `doc_count_probs[i]`, and `np.argmax(... > 0)` returns that
bucket index, which is the sampled document count. -/
def doc_count_probs : List ℚ :=
  [0, mkRat 3 10, mkRat 3 10, mkRat 2 10, mkRat 1 10, mkRat 1 10]

/-! ### `make_entities` -/

/-- The insertion-ordered list of the distinct entity IDs occurring in
the adjacency structure: the contents of the Python `set` built by
`make_entities`. -/
def entity_id_set (adj : List (String × List String)) : List String :=
  adj.foldl
    (fun acc p =>
      p.2.foldl (fun a d => if d ∈ a then a else a ++ [d])
        (if p.1 ∈ acc then acc else acc ++ [p.1])) []

/-- `order` is a possible iteration order of a Python `set` holding
exactly `ids`: duplicate-free and with the same members.  CPython
string-set iteration order is hash-seed dependent and unspecified, so it
is modelled as an adversarial parameter. -/
def is_set_order (ids order : List String) : Prop :=
  order.Nodup ∧ (∀ x ∈ order, x ∈ ids) ∧ (∀ x ∈ ids, x ∈ order)

instance (ids order : List String) : Decidable (is_set_order ids order) := by
  unfold is_set_order
  infer_instance

/-- `make_entities(adj)`: one `(entity ID, "Entity <id>")` row per
distinct entity ID, listed in the set-iteration order `order`. -/
def make_entities (adj : List (String × List String)) (order : List String) :
    List (String × String) :=
  order.map (fun entity_id => (entity_id, "Entity " ++ entity_id))

/-! ### `BatchWriter` -/

/-- `",".join(row) + "\n"`. -/
def make_row (row : List String) : String :=
  String.intercalate "," row ++ "\n"

/-- State of a `BatchWriter`: the stored constructor parameters, the
round-robin index `file_idx_next_row`, and the contents written so far to
each of the `num_files` shard files (`fps`), each file being its list of
written lines. -/
@[ext]
structure BatchWriter where
  folder : String
  header : List String
  num_files : Nat
  file_idx_next_row : Nat
  fps : List (List String)
deriving DecidableEq

/-- `BatchWriter.__init__`: requires the folder to exist, a positive
file count and a nonempty header (the asserts are modelled by `none`,
before any file is created); opens the `num_files` shard files and writes
the header row to each. -/
def BatchWriter.init (folder_exists : Bool) (folder : String)
    ( file_prefix : String) (num_files : Int) (header : List String) :
    Option BatchWriter :=
  if folder_exists = true ∧ 0 < num_files ∧ 0 < header.length then
    some { folder := folder, header := header, num_files := num_files.toNat,
           file_idx_next_row := 0,
           fps := List.replicate num_files.toNat [make_row header] }
  else none

/-- `BatchWriter.add_entry(entry)`: asserts the field count matches the
header, writes the row to the file at `file_idx_next_row`, then advances
the index modulo `num_files`.  The assert is modelled by the error
case. -/
def BatchWriter.add_entry (w : BatchWriter) (entry : List String) :
    Except String BatchWriter :=
  if entry.length = w.header.length then
    .ok { w with
          fps := w.fps.set w.file_idx_next_row
            (w.fps.getD w.file_idx_next_row [] ++ [make_row entry]),
          file_idx_next_row := (w.file_idx_next_row + 1) % w.num_files }
  else .error "assert len(entry) == len(self.header)"

/-- The writer state after an `add_entry` call, with a success flag: a
failing call leaves the state exactly as it was, because both asserts
precede every mutating statement of the method body. -/
def BatchWriter.add_entry_run (w : BatchWriter) (entry : List String) :
    BatchWriter × Bool :=
  match w.add_entry entry with
  | .ok w' => (w', true)
  | .error _ => (w, false)

/-- `BatchWriter.add_entries(entries)`: adds the rows in order; the run
aborts at the first assert failure. -/
def BatchWriter.add_entries (w : BatchWriter) (entries : List (List String)) :
    Except String BatchWriter :=
  match entries with
  | [] => .ok w
  | e :: es =>
      match w.add_entry e with
      | .ok w' => w'.add_entries es
      | .error msg => .error msg

/-- The sublist of `entries` that round-robin distribution over `num`
shards, the first entry going to shard `i % num`, sends to shard `j`. -/
def distribFrom (num : Nat) : Nat → List (List String) → Nat → List (List String)
  | _, [], _ => []
  | i, e :: es, j =>
      if i % num = j then e :: distribFrom num ((i + 1) % num) es j
      else distribFrom num ((i + 1) % num) es j

/-- Append `rows j` to the file at position `j`, the head of the list
being file `k`. -/
def appendRows : List (List String) → Nat → (Nat → List String) → List (List String)
  | [], _, _ => []
  | f :: fs, k, rows => (f ++ rows k) :: appendRows fs (k + 1) rows

/-- The writer state after a successful `add_entries` run: each shard
`j` receives, in submission order, exactly the entries whose 0-indexed
submission position `p` satisfies `(file_idx_next_row + p) % num_files = j`,
and the round-robin index advances by the number of entries. -/
def runResult (w : BatchWriter) (entries : List (List String)) : BatchWriter :=
  { w with
    fps := appendRows w.fps 0
      (fun j => (distribFrom w.num_files w.file_idx_next_row entries j).map make_row),
    file_idx_next_row := (w.file_idx_next_row + entries.length) % w.num_files }

/-! ### The assembler (`__main__` loop) -/

/-- Python `int()` on a rational: truncation toward zero. -/
def int_trunc (q : ℚ) : Int :=
  q.num.tdiv q.den

/-- The size sampling of one assembler iteration:
`num_entities = int(stats.expon.rvs(0, exp_scale)); assert num_entities > 0`.
The exponential sample is the nonnegative rational `q`; the assert is
modelled by `none`. -/
def sample_num_entities (q : ℚ) : Option Int :=
  if 0 < int_trunc q then some (int_trunc q) else none

/-- The component-construction part of one assembler iteration: sample
the component size, then build the connected component. -/
def assembler_component (q : ℚ) (draw : Nat → Nat) :
    Option (List (Nat × List Nat)) :=
  match sample_num_entities q with
  | none => none
  | some n => make_connected_component n draw

/-- The entity-ID portion of the assembler loop: for each component size
in turn, build the component, assign entity IDs at the running offset
(`adj_assigned, next_entity_offset = assign_entity_ids(adj, next_entity_offset)`),
and record the component's distinct entity IDs (the IDs of the rows that
`make_entities` emits for it). -/
def assembler_entity_ids (draw : Nat → Nat) :
    List Int → Int → Option (List (List String))
  | [], _ => some []
  | sz :: sizes, offset =>
      match make_connected_component sz draw with
      | none => none
      | some adj =>
          match assign_entity_ids adj offset with
          | none => none
          | some (adjA, nextOffset) =>
              match assembler_entity_ids draw sizes nextOffset with
              | none => none
              | some rest => some (entity_id_set adjA :: rest)

/-- Attachment draws forcing the chain 1→0, 2→0, 3→1. -/
def c6_draw : Nat → Nat := fun i => if i = 3 then 1 else 0

/-- The end-to-end scenario of claim C6: one component of exactly 4
entities (attachment draws `c6_draw`), document-count draw 1 per edge,
entity and link writers with 2 shards each, wired exactly as the
`__main__` loop does for its first component (fresh writers, both global
offsets 0).  The documents writer is a third, independent writer and is
not part of the claim.  `order` is the set-iteration order used by
`make_entities`. -/
def scenario_c6 (order : List String) : Option (BatchWriter × BatchWriter) :=
  match make_connected_component 4 c6_draw with
  | none => none
  | some adj =>
      match assign_entity_ids adj 0 with
      | none => none
      | some (adjA, _) =>
          match insert_documents adjA 0 (fun _ => 1) with
          | none => none
          | some (links, _) =>
              match BatchWriter.init true "data" "entities" 2 ["ID", "label"] with
              | none => none
              | some ew =>
                  match BatchWriter.init true "data" "links" 2
                      ["entity ID", "document ID"] with
                  | none => none
                  | some lw =>
                      match ew.add_entries
                          ((make_entities adjA order).map (fun r => [r.1, r.2])) with
                      | .error _ => none
                      | .ok ew' =>
                          match lw.add_entries (links.map (fun l => [l.1, l.2])) with
                          | .error _ => none
                          | .ok lw' => some (ew', lw')

/-- The data rows (header line dropped) of entity shard `j` in the C6
scenario result. -/
def c6_entity_shard (r : Option (BatchWriter × BatchWriter)) (j : Nat) :
    List String :=
  match r with
  | some (ew, _) => (ew.fps.getD j []).drop 1
  | none => []

/-- The data rows (header line dropped) of link shard `j` in the C6
scenario result. -/
def c6_link_shard (r : Option (BatchWriter × BatchWriter)) (j : Nat) :
    List String :=
  match r with
  | some (_, lw) => (lw.fps.getD j []).drop 1
  | none => []

/-! ### Helper lemmas -/

theorem getD_set_self : ∀ (l : List α) (i : Nat) (x d : α),
    i < l.length → (l.set i x).getD i d = x := by
  intro l
  induction l with
  | nil => intro i x d h; simp at h
  | cons a t ih =>
    intro i x d h
    cases i with
    | zero => simp
    | succ n =>
      simp only [List.set, List.getD_cons_succ]
      exact ih n x d (by simpa using h)

theorem getD_set_ne : ∀ (l : List α) (i j : Nat) (x d : α),
    i ≠ j → (l.set i x).getD j d = l.getD j d := by
  intro l
  induction l with
  | nil => intro i j x d _; simp
  | cons a t ih =>
    intro i j x d hij
    cases i with
    | zero =>
      cases j with
      | zero => exact absurd rfl hij
      | succ m => simp
    | succ n =>
      cases j with
      | zero => simp
      | succ m =>
        simp only [List.set, List.getD_cons_succ]
        exact ih n m x d (by omega)

/-- When every document-count draw is nonzero, the `insert_documents`
loop never hits its assert. -/
theorem idoc_go_isSome (draw : Nat → Nat) (h : ∀ k, draw k ≠ 0) :
    ∀ (es : List (String × String)) (cur k : Nat),
      (idoc_go draw es cur k).isSome = true := by
  intro es
  induction es with
  | nil => intro cur k; simp [idoc_go]
  | cons e es ih =>
    intro cur k
    obtain ⟨s, d⟩ := e
    obtain ⟨⟨rest, fin⟩, hv⟩ := Option.isSome_iff_exists.1 (ih (cur + draw k) (k + 1))
    simp [idoc_go, h k, hv]

theorem int_trunc_eq_floor (q : ℚ) (hq : 0 ≤ q) : int_trunc q = ⌊q⌋ := by
  unfold int_trunc
  rw [Int.tdiv_eq_ediv (Rat.num_nonneg.2 hq) (Int.natCast_nonneg q.den)]
  exact Rat.floor_def.symm

/-! ### Claim C1 -/

/-- C1 (failing input): `assign_entity_ids({0: []}, 5)` returns next
offset `1` (= max local index + 1), not `6` (= offset + max local
index + 1) as the claim states; the adjacency part is correctly
relabelled. -/
theorem C1_assign_entity_ids_failing_input :
    assign_entity_ids [(0, [])] 5 = some ([("e-5", [])], 1) ∧
      (1 : Int) ≠ 5 + (0 + 1) := by
  constructor
  · decide
  · decide

/-! ### Claim C2 -/

/-- C2 (failing input): with three components of two entities each the
assembler's offset threading resets after each component
(`assign_entity_ids` returns `max+1`, not `offset+max+1`), so the second
and the third component both emit entity rows with IDs `e-2` and `e-3`:
entity IDs are not unique across components. -/
theorem C2_entity_id_collision_across_components :
    assembler_entity_ids (fun _ => 0) [2, 2, 2] 0 =
        some [["e-0", "e-1"], ["e-2", "e-3"], ["e-2", "e-3"]] ∧
      ("e-2" ∈ [["e-0", "e-1"], ["e-2", "e-3"], ["e-2", "e-3"]].getD 1 [] ∧
       "e-2" ∈ [["e-0", "e-1"], ["e-2", "e-3"], ["e-2", "e-3"]].getD 2 []) := by
  constructor
  · decide
  · decide

/-! ### Claim C7 -/

/-- C7 (counterexample): the exponential draw `0.5` is a possible draw
(nonnegative), yet the assembler's `int(...)` truncates it to `0` and the
`assert num_entities > 0` aborts the run: no size at all is passed to
`make_connected_component`, so the size is not "clamped to a strictly
positive integer". -/
theorem C7_counterexample :
    (0 : ℚ) ≤ mkRat 1 2 ∧ sample_num_entities (mkRat 1 2) = none ∧
      (∀ draw : Nat → Nat, assembler_component (mkRat 1 2) draw = none) := by
  refine ⟨by decide, by decide, ?_⟩
  intro draw
  unfold assembler_component
  have h : sample_num_entities (mkRat 1 2) = none := by decide
  rw [h]

/-- C7 (amended): the assembler truncates the exponential draw to an
integer and asserts positivity rather than clamping.  For every draw
`q ≥ 1` it passes the positive size `int(q)` to
`make_connected_component`, whose own non-positive-size error branch is
then unreachable; for a draw `q < 1` the assembler's assert aborts the
iteration before `make_connected_component` is called. -/
theorem C7_assembler_size_amended (q : ℚ) (hq : 0 ≤ q) (draw : Nat → Nat) :
    (1 ≤ q →
      sample_num_entities q = some (int_trunc q) ∧ 0 < int_trunc q ∧
      assembler_component q draw = make_connected_component (int_trunc q) draw ∧
      (make_connected_component (int_trunc q) draw).isSome = true) ∧
    (q < 1 → sample_num_entities q = none ∧ assembler_component q draw = none) := by
  constructor
  · intro h1
    have hpos : 0 < int_trunc q := by
      rw [int_trunc_eq_floor q hq]
      have : (1 : Int) ≤ ⌊q⌋ := Int.le_floor.2 (by exact_mod_cast h1)
      omega
    have hs : sample_num_entities q = some (int_trunc q) := by
      unfold sample_num_entities
      rw [if_pos hpos]
    refine ⟨hs, hpos, ?_, ?_⟩
    · unfold assembler_component
      rw [hs]
    · unfold make_connected_component
      rw [if_pos hpos]
      rfl
  · intro hlt
    have h0 : int_trunc q = 0 := by
      rw [int_trunc_eq_floor q hq]
      exact Int.floor_eq_zero_iff.2 ⟨hq, hlt⟩
    have hs : sample_num_entities q = none := by
      unfold sample_num_entities
      rw [if_neg (by omega)]
    exact ⟨hs, by unfold assembler_component; rw [hs]⟩

/-- Witness for `C7_assembler_size_amended` at the draw `q = 2`. -/
theorem C7_assembler_size_amended_witness :
    (0 : ℚ) ≤ 2 ∧
    ((1 ≤ (2 : ℚ) →
      sample_num_entities 2 = some (int_trunc 2) ∧ 0 < int_trunc 2 ∧
      assembler_component 2 (fun _ => 0) =
        make_connected_component (int_trunc 2) (fun _ => 0) ∧
      (make_connected_component (int_trunc 2) (fun _ => 0)).isSome = true) ∧
    ((2 : ℚ) < 1 →
      sample_num_entities 2 = none ∧ assembler_component 2 (fun _ => 0) = none)) :=
  ⟨zero_le_two, C7_assembler_size_amended 2 zero_le_two (fun _ => 0)⟩

/-! ### Claim C8 -/

/-- C8: a multinomial draw from `doc_count_probs` can only land in a
bucket of positive probability; every such bucket index is in
`{1,…,5}`, so the sampled document count is strictly positive and the
defensive `assert num_docs > 0` of `insert_documents` never fires for
reachable draws. -/
theorem C8_reachable_doc_counts_positive (i : Nat)
    (hi : 0 < doc_count_probs.getD i 0)
    (adj : List (String × List String)) (doc_id_offset : Nat)
    (draw : Nat → Nat)
    (hdraw : ∀ k, 0 < doc_count_probs.getD (draw k) 0) :
    (1 ≤ i ∧ i ≤ 5) ∧
      (insert_documents adj doc_id_offset draw).isSome = true := by
  have key : ∀ j : Nat, 0 < doc_count_probs.getD j 0 → 1 ≤ j ∧ j ≤ 5 := by
    intro j hj
    have hlen : j < 6 := by
      by_contra hge
      rw [List.getD_eq_default] at hj
      · exact lt_irrefl 0 hj
      · simp only [doc_count_probs]
        simp only [List.length_cons, List.length_nil]
        omega
    interval_cases j
    · exact absurd hj (by decide)
    · exact ⟨by omega, by omega⟩
    · exact ⟨by omega, by omega⟩
    · exact ⟨by omega, by omega⟩
    · exact ⟨by omega, by omega⟩
    · exact ⟨by omega, by omega⟩
  refine ⟨key i hi, ?_⟩
  apply idoc_go_isSome
  intro k
  intro hk0
  have := (key (draw k) (hdraw k)).1
  omega

/-- Witness for `C8_reachable_doc_counts_positive`: bucket 1 has
probability 3/10, and with every draw landing in bucket 1 the insertion
on a one-edge structure succeeds. -/
theorem C8_reachable_doc_counts_positive_witness :
    (0 : ℚ) < doc_count_probs.getD 1 0 ∧
    ((1 ≤ 1 ∧ 1 ≤ 5) ∧
      (insert_documents [("e-0", ["e-1"])] 0 (fun _ => 1)).isSome = true) :=
  have hdraw : ∀ k : Nat, (0 : ℚ) < doc_count_probs.getD 1 0 := fun _ => by decide
  ⟨by decide,
    C8_reachable_doc_counts_positive 1 (by decide) [("e-0", ["e-1"])] 0
      (fun _ => 1) hdraw⟩

/-! ### Claim C9 -/

/-- C9: `BatchWriter` construction fails when the target folder does not
exist or when the shard count is zero or negative, in both cases
returning no writer (so nothing is ever written); and `add_entry` fails
with an error whenever the entry's field count differs from the header
length, leaving every shard file unchanged. -/
theorem C9_batchwriter_error_handling (folder_exists : Bool)
    (folder fp : String) (num_files : Int) (header : List String)
    (w : BatchWriter) (entry : List String) :
    (folder_exists = false →
      BatchWriter.init folder_exists folder fp num_files header = none) ∧
    (num_files ≤ 0 →
      BatchWriter.init folder_exists folder fp num_files header = none) ∧
    (entry.length ≠ w.header.length →
      w.add_entry entry = .error "assert len(entry) == len(self.header)" ∧
      (w.add_entry_run entry).1.fps = w.fps) := by
  refine ⟨?_, ?_, ?_⟩
  · intro hfe
    unfold BatchWriter.init
    rw [if_neg]
    simp [hfe]
  · intro hnf
    unfold BatchWriter.init
    rw [if_neg]
    intro hc
    omega
  · intro hlen
    have herr : w.add_entry entry = .error "assert len(entry) == len(self.header)" := by
      unfold BatchWriter.add_entry
      rw [if_neg hlen]
    refine ⟨herr, ?_⟩
    unfold BatchWriter.add_entry_run
    rw [herr]

/-- Witness for `C9_batchwriter_error_handling`. -/
theorem C9_batchwriter_error_handling_witness :
    BatchWriter.init false "d" "p" 2 ["ID"] = none ∧
    BatchWriter.init true "d" "p" 0 ["ID"] = none ∧
    (BatchWriter.mk "d" ["ID", "label"] 2 0 [["h"], ["h"]]).add_entry ["x"] =
      .error "assert len(entry) == len(self.header)" ∧
    ((BatchWriter.mk "d" ["ID", "label"] 2 0 [["h"], ["h"]]).add_entry_run
      ["x"]).1.fps = [["h"], ["h"]] := by
  have h := C9_batchwriter_error_handling false "d" "p" 2 ["ID"]
    (BatchWriter.mk "d" ["ID", "label"] 2 0 [["h"], ["h"]]) ["x"]
  have h2 := C9_batchwriter_error_handling true "d" "p" 0 ["ID"]
    (BatchWriter.mk "d" ["ID", "label"] 2 0 [["h"], ["h"]]) ["x"]
  exact ⟨h.1 rfl, h2.2.1 (by decide), (h.2.2 (by decide)).1, (h.2.2 (by decide)).2⟩

/-! ### Claim C10 -/

/-- C10: a failed `add_entry` (field-count mismatch) leaves the writer
state completely unchanged — both asserts precede every mutation — so a
subsequent valid `add_entry` writes its row to exactly the shard the
failed call would have targeted (`file_idx_next_row`), and succeeds. -/
theorem C10_failed_add_entry_state_unchanged (w : BatchWriter)
    (bad good : List String)
    (hbad : bad.length ≠ w.header.length)
    (hgood : good.length = w.header.length)
    (hwf : w.file_idx_next_row < w.fps.length) :
    w.add_entry_run bad = (w, false) ∧
    ((w.add_entry_run bad).1.add_entry_run good).2 = true ∧
    ((w.add_entry_run bad).1.add_entry_run good).1.fps.getD
        w.file_idx_next_row [] =
      w.fps.getD w.file_idx_next_row [] ++ [make_row good] := by
  have hfail : w.add_entry_run bad = (w, false) := by
    unfold BatchWriter.add_entry_run BatchWriter.add_entry
    rw [if_neg hbad]
  have hok : w.add_entry good = .ok
      { w with
        fps := w.fps.set w.file_idx_next_row
          (w.fps.getD w.file_idx_next_row [] ++ [make_row good]),
        file_idx_next_row := (w.file_idx_next_row + 1) % w.num_files } := by
    unfold BatchWriter.add_entry
    rw [if_pos hgood]
  refine ⟨hfail, ?_, ?_⟩
  · rw [hfail]
    unfold BatchWriter.add_entry_run
    rw [hok]
  · rw [hfail]
    unfold BatchWriter.add_entry_run
    rw [hok]
    exact getD_set_self _ _ _ _ hwf

/-- Witness for `C10_failed_add_entry_state_unchanged`. -/
theorem C10_failed_add_entry_state_unchanged_witness :
    (["x"].length ≠ (["ID", "label"] : List String).length ∧
     (["a", "b"].length = (["ID", "label"] : List String).length) ∧
     (0 : Nat) < 2) ∧
    ((BatchWriter.mk "d" ["ID", "label"] 2 0 [["h"], ["h"]]).add_entry_run ["x"] =
      (BatchWriter.mk "d" ["ID", "label"] 2 0 [["h"], ["h"]], false) ∧
    (((BatchWriter.mk "d" ["ID", "label"] 2 0 [["h"], ["h"]]).add_entry_run
        ["x"]).1.add_entry_run ["a", "b"]).2 = true ∧
    (((BatchWriter.mk "d" ["ID", "label"] 2 0 [["h"], ["h"]]).add_entry_run
        ["x"]).1.add_entry_run ["a", "b"]).1.fps.getD 0 [] =
      [["h"], ["h"]].getD 0 [] ++ [make_row ["a", "b"]]) :=
  ⟨⟨by decide, by decide, by decide⟩,
    C10_failed_add_entry_state_unchanged
      (BatchWriter.mk "d" ["ID", "label"] 2 0 [["h"], ["h"]]) ["x"] ["a", "b"]
      (by decide) (by decide) (by decide)⟩

/-! ### Round-robin distribution lemmas (`BatchWriter`) -/

theorem appendRows_length :
    ∀ (fps : List (List String)) (k : Nat) (rows : Nat → List String),
      (appendRows fps k rows).length = fps.length := by
  intro fps
  induction fps with
  | nil => intro k rows; rfl
  | cons f fs ih => intro k rows; simp [appendRows, ih]

theorem appendRows_getD :
    ∀ (fps : List (List String)) (k j : Nat) (rows : Nat → List String),
      (appendRows fps k rows).getD j [] =
        if j < fps.length then fps.getD j [] ++ rows (k + j) else [] := by
  intro fps
  induction fps with
  | nil => intro k j rows; simp [appendRows]
  | cons f fs ih =>
    intro k j rows
    cases j with
    | zero => simp [appendRows]
    | succ m =>
      simp only [appendRows, List.getD_cons_succ, ih (k + 1) m rows,
        List.length_cons]
      have : k + 1 + m = k + (m + 1) := by omega
      rw [this]
      by_cases hm : m < fs.length
      · rw [if_pos hm, if_pos (by omega)]
      · rw [if_neg hm, if_neg (by omega)]

theorem appendRows_const_nil :
    ∀ (fps : List (List String)) (k : Nat),
      appendRows fps k (fun _ => []) = fps := by
  intro fps
  induction fps with
  | nil => intro k; rfl
  | cons f fs ih => intro k; simp [appendRows, ih]

theorem getD_ext_nil :
    ∀ (l1 l2 : List (List String)), l1.length = l2.length →
      (∀ j, l1.getD j [] = l2.getD j []) → l1 = l2 := by
  intro l1
  induction l1 with
  | nil =>
    intro l2 hlen _
    cases l2 with
    | nil => rfl
    | cons b t => simp at hlen
  | cons a t ih =>
    intro l2 hlen hp
    cases l2 with
    | nil => simp at hlen
    | cons b t2 =>
      have h0 := hp 0
      simp only [List.getD_cons_zero] at h0
      have ht : t = t2 := by
        apply ih t2 (by simpa using hlen)
        intro j
        have := hp (j + 1)
        simpa using this
      rw [h0, ht]

/-- A successful `add_entries` run produces exactly the round-robin
distribution `runResult`. -/
theorem add_entries_ok :
    ∀ (entries : List (List String)) (w : BatchWriter),
      (∀ e ∈ entries, e.length = w.header.length) →
      0 < w.num_files → w.file_idx_next_row < w.num_files →
      w.fps.length = w.num_files →
      w.add_entries entries = .ok (runResult w entries) := by
  intro entries
  induction entries with
  | nil =>
    intro w _ hN hidx hlen
    have hres : runResult w [] = w := by
      unfold runResult
      have hrows : (fun j => (distribFrom w.num_files w.file_idx_next_row [] j).map
          make_row) = fun _ => [] := by
        funext j
        simp [distribFrom]
      rw [hrows, appendRows_const_nil, List.length_nil, Nat.add_zero,
        Nat.mod_eq_of_lt hidx]
    rw [BatchWriter.add_entries, hres]
  | cons e es ih =>
    intro w hval hN hidx hlen
    have he : e.length = w.header.length := hval e (by simp)
    set w1 : BatchWriter :=
      { w with
        fps := w.fps.set w.file_idx_next_row
          (w.fps.getD w.file_idx_next_row [] ++ [make_row e]),
        file_idx_next_row := (w.file_idx_next_row + 1) % w.num_files } with hw1
    have hadd : w.add_entry e = .ok w1 := by
      unfold BatchWriter.add_entry
      rw [if_pos he]
    have hrec : w1.add_entries es = .ok (runResult w1 es) := by
      apply ih
      · intro x hx
        exact hval x (by simp [hx])
      · exact hN
      · exact Nat.mod_lt _ hN
      · simp [hw1, List.length_set, hlen]
    have hmain : runResult w1 es = runResult w (e :: es) := by
      unfold runResult
      have hnf : w1.num_files = w.num_files := rfl
      have hfpslen1 : w1.fps.length = w.fps.length := by
        simp [hw1, List.length_set]
      refine BatchWriter.ext rfl rfl rfl ?_ ?_
      · show ((w.file_idx_next_row + 1) % w.num_files + es.length) % w.num_files =
          (w.file_idx_next_row + (e :: es).length) % w.num_files
        rw [Nat.mod_add_mod]
        have harith : w.file_idx_next_row + 1 + es.length =
            w.file_idx_next_row + (e :: es).length := by
          simp only [List.length_cons]
          omega
        rw [harith]
      · apply getD_ext_nil
        · rw [appendRows_length, appendRows_length, hfpslen1]
        · intro j
          rw [appendRows_getD, appendRows_getD, hfpslen1]
          by_cases hj : j < w.fps.length
          · rw [if_pos hj, if_pos hj]
            simp only [Nat.zero_add]
            have hiN : w.file_idx_next_row % w.num_files = w.file_idx_next_row :=
              Nat.mod_eq_of_lt hidx
            show (w.fps.set w.file_idx_next_row _).getD j [] ++
                (distribFrom w.num_files ((w.file_idx_next_row + 1) % w.num_files) es j).map make_row =
              w.fps.getD j [] ++
                (distribFrom w.num_files w.file_idx_next_row (e :: es) j).map make_row
            rw [distribFrom]
            by_cases hij : w.file_idx_next_row = j
            · rw [if_pos (by rw [hiN, hij]), ← hij, getD_set_self _ _ _ _ (by omega)]
              simp [List.append_assoc]
            · rw [if_neg (by rw [hiN]; exact hij), getD_set_ne _ _ _ _ _ hij]
          · rw [if_neg hj, if_neg hj]
    rw [BatchWriter.add_entries, hadd]
    show w1.add_entries es = Except.ok (runResult w (e :: es))
    rw [hrec, hmain]

/-- `distribFrom` sends exactly the entries at positions `p` with
`(i + p) % num = j` to shard `j`, keeping their order. -/
theorem distribFrom_eq_filter (num : Nat) :
    ∀ (es : List (List String)) (i j : Nat),
      distribFrom num i es j =
        ((List.range es.length).filter (fun k => (i + k) % num == j)).map
          (fun k => es.getD k []) := by
  intro es
  induction es with
  | nil => intro i j; simp [distribFrom]
  | cons e es ih =>
    intro i j
    rw [distribFrom, List.length_cons, List.range_succ_eq_map]
    have hcomp : ((fun k => (i + k) % num == j) ∘ Nat.succ) =
        (fun k => (i + 1 + k) % num == j) := by
      funext k
      simp only [Function.comp]
      have : i + Nat.succ k = i + 1 + k := by omega
      rw [this]
    have hIH := ih ((i + 1) % num) j
    have hpred : (fun k => ((i + 1) % num + k) % num == j) =
        (fun k => (i + 1 + k) % num == j) := by
      funext k
      rw [Nat.mod_add_mod]
    rw [hpred] at hIH
    have htail : ∀ L : List Nat,
        L.map ((fun k => (e :: es).getD k []) ∘ Nat.succ) =
          L.map (fun k => es.getD k []) := by
      intro L
      apply List.map_congr_left
      intro a _
      simp
    by_cases hij : i % num = j
    · rw [if_pos hij,
        List.filter_cons_of_pos (by simpa using hij),
        List.map_cons, List.filter_map, hcomp, List.map_map, htail, hIH]
      simp
    · rw [if_neg hij,
        List.filter_cons_of_neg (by simpa using hij),
        List.filter_map, hcomp, List.map_map, htail, hIH]

theorem distribFrom_snoc (num : Nat) :
    ∀ (es : List (List String)) (e : List String) (i j : Nat),
      distribFrom num i (es ++ [e]) j =
        distribFrom num i es j ++
          (if (i + es.length) % num = j then [e] else []) := by
  intro es
  induction es with
  | nil =>
    intro e i j
    show distribFrom num i [e] j = distribFrom num i [] j ++
      (if (i + List.length []) % num = j then [e] else [])
    rw [distribFrom, distribFrom]
    by_cases h : i % num = j
    · rw [if_pos h, if_pos (by simpa using h)]
      rw [distribFrom]
      rfl
    · rw [if_neg h, if_neg (by simpa using h)]
      rw [distribFrom]
      rfl
  | cons x es ih =>
    intro e i j
    rw [List.cons_append, distribFrom, distribFrom, ih]
    have harith : ((i + 1) % num + es.length) % num = (i + (x :: es).length) % num := by
      rw [Nat.mod_add_mod]
      have h2 : i + 1 + es.length = i + (x :: es).length := by
        simp only [List.length_cons]
        omega
      rw [h2]
    rw [harith]
    by_cases h : i % num = j
    · rw [if_pos h, if_pos h, List.cons_append]
    · rw [if_neg h, if_neg h]

/-- One round-robin step of the prefix-count formula. -/
theorem round_robin_count_step (num m j : Nat) (hN : 0 < num) (hj : j < num) :
    (m + 1) / num + (if j < (m + 1) % num then 1 else 0) =
      m / num + (if j < m % num then 1 else 0) +
        (if m % num = j then 1 else 0) := by
  have hmlt : m % num < num := Nat.mod_lt _ hN
  rcases Nat.lt_or_ge (m % num + 1) num with hlt | hge
  · have hN2 : 2 ≤ num := by omega
    have hmod : (m + 1) % num = m % num + 1 := by
      rw [Nat.add_mod, Nat.mod_eq_of_lt (show 1 < num by omega),
        Nat.mod_eq_of_lt hlt]
    have hdvd : ¬ num ∣ (m + 1) := by
      intro hd
      have := Nat.mod_eq_zero_of_dvd hd
      omega
    rw [Nat.succ_div, if_neg hdvd, hmod]
    split_ifs <;> omega
  · have hmN : m % num = num - 1 := by omega
    have hdvd : num ∣ (m + 1) := by
      refine ⟨m / num + 1, ?_⟩
      have h := Nat.div_add_mod m num
      have hms : num * (m / num + 1) = num * (m / num) + num := Nat.mul_succ _ _
      omega
    have hmod : (m + 1) % num = 0 := by
      rcases hdvd with ⟨c, hc⟩
      rw [hc, Nat.mul_mod_right]
    rw [Nat.succ_div, if_pos hdvd, hmod]
    split_ifs <;> omega

theorem dvd_mod_count (num : Nat) (hN : 0 < num) :
    ∀ (es : List (List String)) (j : Nat), j < num →
      (distribFrom num 0 es j).length =
        es.length / num + (if j < es.length % num then 1 else 0) := by
  intro es
  induction es using List.reverseRecOn with
  | nil =>
    intro j hj
    simp [distribFrom, Nat.zero_div]
  | append_singleton es e ih =>
    intro j hj
    rw [distribFrom_snoc]
    simp only [List.length_append, List.length_cons, List.length_nil, Nat.zero_add]
    rw [ih j hj, round_robin_count_step num es.length j hN hj]
    by_cases h : es.length % num = j
    · rw [if_pos h, if_pos h]
      simp
    · rw [if_neg h, if_neg h]
      simp only [List.length_nil]

/-- The ceiling `⌈m/num⌉ = (m + num - 1) / num` in terms of floor. -/
theorem ceil_div_eq (num m : Nat) (hN : 0 < num) :
    (m + num - 1) / num = m / num + (if m % num = 0 then 0 else 1) := by
  have h := Nat.div_add_mod m num
  have hmlt : m % num < num := Nat.mod_lt _ hN
  by_cases h0 : m % num = 0
  · rw [if_pos h0]
    have hm : m + num - 1 = num * (m / num) + (num - 1) := by omega
    rw [hm, Nat.mul_add_div hN,
      Nat.div_eq_of_lt (show num - 1 < num by omega)]
  · rw [if_neg h0]
    have hms : num * (m / num + 1) = num * (m / num) + num := Nat.mul_succ _ _
    have hm : m + num - 1 = num * (m / num + 1) + (m % num - 1) := by omega
    rw [hm, Nat.mul_add_div hN,
      Nat.div_eq_of_lt (show m % num - 1 < num by omega)]

theorem flatMap_congr_on {α : Type} :
    ∀ (L : List Nat) (f g : Nat → List α), (∀ j ∈ L, f j = g j) →
      L.flatMap f = L.flatMap g := by
  intro L
  induction L with
  | nil => intro f g _; rfl
  | cons a L ih =>
    intro f g h
    simp only [List.flatMap_cons]
    rw [h a (by simp), ih f g (fun j hj => h j (by simp [hj]))]

theorem flatMap_ite_cons_perm {α : Type} :
    ∀ (L : List Nat) (i0 : Nat) (e : α) (g : Nat → List α), i0 ∈ L → L.Nodup →
      (L.flatMap (fun j => if i0 = j then e :: g j else g j)).Perm
        (e :: L.flatMap g) := by
  intro L
  induction L with
  | nil => intro i0 e g hmem _; simp at hmem
  | cons a L ih =>
    intro i0 e g hmem hnd
    have hndL : L.Nodup := (List.nodup_cons.1 hnd).2
    have haL : a ∉ L := (List.nodup_cons.1 hnd).1
    by_cases ha : i0 = a
    · subst ha
      simp only [List.flatMap_cons, if_pos rfl]
      have : L.flatMap (fun j => if i0 = j then e :: g j else g j) = L.flatMap g := by
        apply flatMap_congr_on
        intro j hj
        rw [if_neg]
        intro hc
        exact haL (hc ▸ hj)
      rw [this]
      exact List.Perm.refl _
    · have hmemL : i0 ∈ L := by
        rcases List.mem_cons.1 hmem with h | h
        · exact absurd h ha
        · exact h
      simp only [List.flatMap_cons, if_neg ha]
      have hIH := ih i0 e g hmemL hndL
      exact (List.Perm.append_left _ hIH).trans List.perm_middle

theorem flatMap_const_nil {α β : Type} :
    ∀ L : List β, L.flatMap (fun _ => ([] : List α)) = [] := by
  intro L
  induction L with
  | nil => rfl
  | cons a L ih => simp [List.flatMap_cons, ih]

/-- Concatenating all shards of the round-robin distribution is a
permutation of the submitted entries: no record is lost or duplicated. -/
theorem distrib_concat_perm (num : Nat) (hN : 0 < num) :
    ∀ (es : List (List String)) (i : Nat),
      ((List.range num).flatMap (distribFrom num i es)).Perm es := by
  intro es
  induction es with
  | nil =>
    intro i
    have : (List.range num).flatMap (distribFrom num i []) = [] := by
      have h : distribFrom num i ([] : List (List String)) = fun _ => [] := by
        funext j
        simp [distribFrom]
      rw [h]
      exact flatMap_const_nil _
    rw [this]
  | cons e es ih =>
    intro i
    have hstep : (List.range num).flatMap (distribFrom num i (e :: es)) =
        (List.range num).flatMap
          (fun j => if i % num = j then e :: distribFrom num ((i + 1) % num) es j
            else distribFrom num ((i + 1) % num) es j) := by
      apply flatMap_congr_on
      intro j _
      rw [distribFrom]
    rw [hstep]
    have hperm := flatMap_ite_cons_perm (List.range num) (i % num) e
      (distribFrom num ((i + 1) % num) es)
      (List.mem_range.2 (Nat.mod_lt _ hN)) (List.nodup_range num)
    exact hperm.trans (List.Perm.cons e (ih ((i + 1) % num)))

/-! ### Claim C4 -/

/-- The writer that `BatchWriter.init` produces for an existing folder:
`num` freshly opened shard files, each holding only the header row, and
round-robin index 0. -/
def freshWriter (header : List String) (num : Nat) : BatchWriter :=
  BatchWriter.mk "data" header num 0 (List.replicate num [make_row header])

/-- The full round-robin contract of claim C4 for a fresh writer with
`num_files` shards and `entries` submitted in order:
construction succeeds; the run writes `runResult` (shard `j` receives
exactly `distribFrom` of the entries, in submission order, after its
header); shard `j` holds exactly the records whose 0-indexed submission
position `k` satisfies `k % num_files = j`, in submission order; after
every prefix of `p` submissions every shard holds `⌊p/N⌋` or `⌈p/N⌉`
records; and concatenating the shard contents reproduces the submitted
records with none missing and none duplicated. -/
def C4Conclusion (num_files : Int) (header : List String)
    (entries : List (List String)) : Prop :=
  BatchWriter.init true "data" "t" num_files header =
      some (freshWriter header num_files.toNat) ∧
  (freshWriter header num_files.toNat).add_entries entries =
      .ok (runResult (freshWriter header num_files.toNat) entries) ∧
  allOf (List.range num_files.toNat) (fun j =>
    distribFrom num_files.toNat 0 entries j =
      ((List.range entries.length).filter (fun k => k % num_files.toNat == j)).map
        (fun k => entries.getD k [])) ∧
  allOf (List.range (entries.length + 1)) (fun p =>
    (freshWriter header num_files.toNat).add_entries (entries.take p) =
        .ok (runResult (freshWriter header num_files.toNat) (entries.take p)) ∧
    allOf (List.range num_files.toNat) (fun j =>
      (distribFrom num_files.toNat 0 (entries.take p) j).length =
          p / num_files.toNat ∨
      (distribFrom num_files.toNat 0 (entries.take p) j).length =
          (p + num_files.toNat - 1) / num_files.toNat)) ∧
  ((List.range num_files.toNat).flatMap
      (distribFrom num_files.toNat 0 entries)).Perm entries

/-- C4: the sharded writer distributes the `k`-th submitted record to
shard `k mod N`, keeps submission order inside every shard, keeps all
shard sizes within `{⌊p/N⌋, ⌈p/N⌉}` after every prefix of `p`
submissions, and loses or duplicates nothing. -/
theorem C4_round_robin (num_files : Int) (header : List String)
    (entries : List (List String)) (hN : 0 < num_files)
    (hh : 0 < header.length)
    (hval : ∀ e ∈ entries, e.length = header.length) :
    C4Conclusion num_files header entries := by
  have hNn : 0 < num_files.toNat := by omega
  have hrun : ∀ es : List (List String), (∀ e ∈ es, e.length = header.length) →
      (freshWriter header num_files.toNat).add_entries es =
        .ok (runResult (freshWriter header num_files.toNat) es) := by
    intro es hv
    apply add_entries_ok
    · exact hv
    · exact hNn
    · exact hNn
    · simp [freshWriter]
  refine ⟨?_, hrun entries hval, ?_, ?_, ?_⟩
  · unfold BatchWriter.init
    rw [if_pos ⟨rfl, hN, hh⟩]
    rfl
  · rw [allOf_iff]
    intro j _
    rw [distribFrom_eq_filter]
    have hzero : (fun k => (0 + k) % num_files.toNat == j) =
        (fun k => k % num_files.toNat == j) := by
      funext k
      rw [Nat.zero_add]
    rw [hzero]
  · rw [allOf_iff]
    intro p hp
    have hple : p ≤ entries.length := by
      have := List.mem_range.1 hp
      omega
    have hlen_take : (entries.take p).length = p := by
      rw [List.length_take]
      omega
    refine ⟨hrun (entries.take p)
      (fun e he => hval e (List.take_subset p entries he)), ?_⟩
    rw [allOf_iff]
    intro j hj
    have hjN := List.mem_range.1 hj
    rw [dvd_mod_count num_files.toNat hNn (entries.take p) j hjN, hlen_take]
    by_cases hsmall : j < p % num_files.toNat
    · right
      rw [if_pos hsmall, ceil_div_eq _ _ hNn, if_neg (by omega)]
    · left
      rw [if_neg hsmall]
      omega
  · exact distrib_concat_perm num_files.toNat hNn entries 0

/-- Witness for `C4_round_robin`: three two-field records over two
shards. -/
theorem C4_round_robin_witness :
    C4Conclusion 2 ["ID", "label"] [["a", "b"], ["c", "d"], ["e", "f"]] :=
  C4_round_robin 2 ["ID", "label"] [["a", "b"], ["c", "d"], ["e", "f"]]
    (by decide) (by decide) (by decide)

/-! ### `insert_documents` lemmas -/

theorem range_getD (n t : Nat) (h : t < n) : (List.range n).getD t 0 = t := by
  rw [List.getD_eq_getElem?_getD, List.getElem?_eq_getElem (by simpa using h)]
  simp

/-- With positive draws, the `insert_documents` loop runs to completion
and computes `idoc_core`. -/
theorem idoc_go_eq_core (draw : Nat → Nat) (hdraw : ∀ k, 0 < draw k) :
    ∀ (es : List (String × String)) (cur k : Nat),
      idoc_go draw es cur k = some (idoc_core draw es cur k) := by
  intro es
  induction es with
  | nil => intro cur k; rfl
  | cons e es ih =>
    intro cur k
    obtain ⟨s, d⟩ := e
    rw [idoc_go, idoc_core, if_neg (by have := hdraw k; omega), ih (cur + draw k) (k + 1)]

theorem idoc_core_next (draw : Nat → Nat) :
    ∀ (es : List (String × String)) (cur k : Nat),
      (idoc_core draw es cur k).2 = cur + sumDraws draw es k := by
  intro es
  induction es with
  | nil => intro cur k; simp [idoc_core, sumDraws]
  | cons e es ih =>
    intro cur k
    obtain ⟨s, d⟩ := e
    rw [idoc_core, sumDraws]
    show (idoc_core draw es (cur + draw k) (k + 1)).2 = cur + (draw k + sumDraws draw es (k + 1))
    rw [ih (cur + draw k) (k + 1)]
    omega

theorem pair_flatMap_length {α β : Type} (f g : α → β) :
    ∀ L : List α, (L.flatMap (fun x => [f x, g x])).length = 2 * L.length := by
  intro L
  induction L with
  | nil => rfl
  | cons a L ih =>
    rw [List.flatMap_cons, List.length_append, ih]
    simp only [List.length_cons, List.length_nil]
    omega

theorem idoc_core_length (draw : Nat → Nat) :
    ∀ (es : List (String × String)) (cur k : Nat),
      (idoc_core draw es cur k).1.length = 2 * sumDraws draw es k := by
  intro es
  induction es with
  | nil => intro cur k; simp [idoc_core, sumDraws]
  | cons e es ih =>
    intro cur k
    obtain ⟨s, d⟩ := e
    rw [idoc_core, sumDraws]
    show ((List.range (draw k)).flatMap _ ++ (idoc_core draw es (cur + draw k) (k + 1)).1).length =
      2 * (draw k + sumDraws draw es (k + 1))
    rw [List.length_append, ih (cur + draw k) (k + 1),
      pair_flatMap_length (fun j => (s, make_document_id (cur + j)))
        (fun j => (d, make_document_id (cur + j))) (List.range (draw k))]
    rw [List.length_range]
    omega

/-- The document-ID column of the produced links: the IDs are allocated
consecutively and monotonically from `cur`, each repeated exactly twice
(once for the source link, once for the destination link). -/
theorem idoc_core_map_snd (draw : Nat → Nat) :
    ∀ (es : List (String × String)) (cur k : Nat),
      (idoc_core draw es cur k).1.map Prod.snd =
        (List.range (sumDraws draw es k)).flatMap
          (fun t => [make_document_id (cur + t), make_document_id (cur + t)]) := by
  intro es
  induction es with
  | nil => intro cur k; simp [idoc_core, sumDraws]
  | cons e es ih =>
    intro cur k
    obtain ⟨s, d⟩ := e
    rw [idoc_core, sumDraws]
    show ((List.range (draw k)).flatMap _ ++ (idoc_core draw es (cur + draw k) (k + 1)).1).map Prod.snd =
      (List.range (draw k + sumDraws draw es (k + 1))).flatMap _
    rw [List.map_append, ih (cur + draw k) (k + 1), List.range_add,
      List.flatMap_append, List.flatMap_map]
    congr 1
    · rw [List.map_flatMap]
      apply flatMap_congr_on
      intro j _
      rfl
    · apply flatMap_congr_on
      intro t _
      have : cur + (draw k + t) = cur + draw k + t := by omega
      rw [this]

theorem pairs_getD {β : Type} [Inhabited β] (f g : Nat → β) :
    ∀ (L : List Nat) (t : Nat) (d : β), t < L.length →
      (L.flatMap (fun x => [f x, g x])).getD (2 * t) d = f (L.getD t 0) ∧
      (L.flatMap (fun x => [f x, g x])).getD (2 * t + 1) d = g (L.getD t 0) := by
  intro L
  induction L with
  | nil => intro t d h; simp at h
  | cons a L ih =>
    intro t d h
    rw [List.flatMap_cons]
    cases t with
    | zero => simp
    | succ m =>
      have h3 : 2 * (m + 1) + 1 = (2 * m + 1) + 1 + 1 := by omega
      have h2 : 2 * (m + 1) = 2 * m + 1 + 1 := by omega
      rw [h3, h2]
      show ((f a :: g a :: L.flatMap fun x => [f x, g x]).getD (2 * m + 1 + 1) d = _) ∧
        ((f a :: g a :: L.flatMap fun x => [f x, g x]).getD (2 * m + 1 + 1 + 1) d = _)
      simp only [List.getD_cons_succ, List.getD_cons_zero]
      exact ih m d (by simpa using h)

/-- The two links of the `t`-th allocated document sit at positions `2t`
and `2t+1` and pair the document with the source and the destination of
the edge it was inserted on. -/
theorem idoc_core_positions (draw : Nat → Nat) :
    ∀ (es : List (String × String)) (cur k t : Nat), t < sumDraws draw es k →
      (idoc_core draw es cur k).1.getD (2 * t) ("", "") =
        ((ownerEdge draw es k t).1, make_document_id (cur + t)) ∧
      (idoc_core draw es cur k).1.getD (2 * t + 1) ("", "") =
        ((ownerEdge draw es k t).2, make_document_id (cur + t)) := by
  intro es
  induction es with
  | nil => intro cur k t h; simp [sumDraws] at h
  | cons e es ih =>
    intro cur k t h
    obtain ⟨s, d⟩ := e
    rw [sumDraws] at h
    rw [idoc_core, ownerEdge]
    show ((List.range (draw k)).flatMap _ ++ (idoc_core draw es (cur + draw k) (k + 1)).1).getD (2 * t) ("", "") = _ ∧
      ((List.range (draw k)).flatMap _ ++ (idoc_core draw es (cur + draw k) (k + 1)).1).getD (2 * t + 1) ("", "") = _
    by_cases ht : t < draw k
    · have hlen : (List.range (draw k)).length = draw k := List.length_range _
      have hflen : ((List.range (draw k)).flatMap
          (fun j => [(s, make_document_id (cur + j)), (d, make_document_id (cur + j))])).length =
            2 * draw k := by
        rw [pair_flatMap_length, hlen]
      have hp := pairs_getD (fun j => (s, make_document_id (cur + j)))
        (fun j => (d, make_document_id (cur + j))) (List.range (draw k)) t ("", "")
        (by omega)
      rw [if_pos ht]
      constructor
      · rw [List.getD_append _ _ _ _ (by omega), hp.1, range_getD _ _ ht]
      · rw [List.getD_append _ _ _ _ (by omega), hp.2, range_getD _ _ ht]
    · have hflen : ((List.range (draw k)).flatMap
          (fun j => [(s, make_document_id (cur + j)), (d, make_document_id (cur + j))])).length =
            2 * draw k := by
        rw [pair_flatMap_length, List.length_range]
      have hIH := ih (cur + draw k) (k + 1) (t - draw k) (by omega)
      have e1 : 2 * t - 2 * draw k = 2 * (t - draw k) := by omega
      have e2 : 2 * t + 1 - 2 * draw k = 2 * (t - draw k) + 1 := by omega
      have e3 : cur + draw k + (t - draw k) = cur + t := by omega
      rw [if_neg ht]
      constructor
      · rw [List.getD_append_right _ _ _ _ (by omega), hflen, e1, hIH.1, e3]
      · rw [List.getD_append_right _ _ _ _ (by omega), hflen, e2, hIH.2, e3]

theorem count_pairs {β : Type} [BEq β] [LawfulBEq β] (g : Nat → β)
    (hg : Function.Injective g) :
    ∀ (L : List Nat) (t0 : Nat), L.Nodup → t0 ∈ L →
      (L.flatMap (fun t => [g t, g t])).count (g t0) = 2 := by
  intro L
  induction L with
  | nil => intro t0 _ h; simp at h
  | cons a L ih =>
    intro t0 hnd hmem
    have hndL : L.Nodup := (List.nodup_cons.1 hnd).2
    have haL : a ∉ L := (List.nodup_cons.1 hnd).1
    rw [List.flatMap_cons, List.count_append]
    by_cases ha : a = t0
    · subst ha
      have hz : (L.flatMap (fun t => [g t, g t])).count (g a) = 0 := by
        rw [List.count_eq_zero]
        intro hc
        rcases List.mem_flatMap.1 hc with ⟨t, htL, hmem2⟩
        have : g a = g t := by
          rcases List.mem_cons.1 hmem2 with h | h
          · exact h
          · simpa using h
        exact haL (hg this ▸ htL)
      rw [hz]
      simp
    · have hmemL : t0 ∈ L := by
        rcases List.mem_cons.1 hmem with h | h
        · exact absurd h.symm ha
        · exact h
      have hz : List.count (g t0) [g a, g a] = 0 := by
        rw [List.count_eq_zero]
        intro hc
        have : g t0 = g a := by
          rcases List.mem_cons.1 hc with h2 | h2
          · exact h2
          · simpa using h2
        exact ha (hg this).symm
      rw [hz, ih t0 hndL hmemL]

/-! ### Claim C5 -/

/-- The document-insertion contract of claim C5 for an adjacency
structure, a document offset and per-edge count draws: the run succeeds
and produces the links of `idoc_core`; the returned next offset is the
input offset plus the total number of documents drawn; the link list has
exactly `2 * total` entries; its document-ID column allocates the IDs
`d-(off)`, `d-(off+1)`, … consecutively and monotonically, each ID
appearing twice in a row; and each allocated document ID appears in
exactly two links, paired with the source and with the destination of
the edge it was inserted on. -/
def C5Conclusion (adj : List (String × List String)) (doc_id_offset : Nat)
    (draw : Nat → Nat) : Prop :=
  insert_documents adj doc_id_offset draw =
      some (idoc_core draw (edge_list adj) doc_id_offset 0) ∧
  (idoc_core draw (edge_list adj) doc_id_offset 0).2 =
      doc_id_offset + sumDraws draw (edge_list adj) 0 ∧
  (idoc_core draw (edge_list adj) doc_id_offset 0).1.length =
      2 * sumDraws draw (edge_list adj) 0 ∧
  (idoc_core draw (edge_list adj) doc_id_offset 0).1.map Prod.snd =
      (List.range (sumDraws draw (edge_list adj) 0)).flatMap
        (fun t => [make_document_id (doc_id_offset + t),
                   make_document_id (doc_id_offset + t)]) ∧
  allOf (List.range (sumDraws draw (edge_list adj) 0)) (fun t =>
    ((idoc_core draw (edge_list adj) doc_id_offset 0).1.map Prod.snd).count
        (make_document_id (doc_id_offset + t)) = 2 ∧
    (idoc_core draw (edge_list adj) doc_id_offset 0).1.getD (2 * t) ("", "") =
        ((ownerEdge draw (edge_list adj) 0 t).1,
          make_document_id (doc_id_offset + t)) ∧
    (idoc_core draw (edge_list adj) doc_id_offset 0).1.getD (2 * t + 1) ("", "") =
        ((ownerEdge draw (edge_list adj) 0 t).2,
          make_document_id (doc_id_offset + t)))

/-- C5: `insert_documents` emits exactly `2 * (sum of sampled document
counts)` links, references every allocated document ID in exactly two
links — one with the source and one with the destination of its edge —
allocates document IDs consecutively from the input offset, and returns
the input offset plus the number of allocated documents. -/
theorem C5_insert_documents (adj : List (String × List String))
    (doc_id_offset : Nat) (draw : Nat → Nat) (hdraw : ∀ k, 0 < draw k) :
    C5Conclusion adj doc_id_offset draw := by
  refine ⟨idoc_go_eq_core draw hdraw (edge_list adj) doc_id_offset 0,
    idoc_core_next draw (edge_list adj) doc_id_offset 0,
    idoc_core_length draw (edge_list adj) doc_id_offset 0,
    idoc_core_map_snd draw (edge_list adj) doc_id_offset 0, ?_⟩
  rw [allOf_iff]
  intro t ht
  have htlt := List.mem_range.1 ht
  refine ⟨?_, (idoc_core_positions draw (edge_list adj) doc_id_offset 0 t htlt).1,
    (idoc_core_positions draw (edge_list adj) doc_id_offset 0 t htlt).2⟩
  rw [idoc_core_map_snd draw (edge_list adj) doc_id_offset 0]
  exact count_pairs (fun t => make_document_id (doc_id_offset + t))
    (fun a b hab => by
      have := make_document_id_injective hab
      omega)
    (List.range (sumDraws draw (edge_list adj) 0)) t
    (List.nodup_range _) ht

/-- Witness for `C5_insert_documents`: two edges, two documents per
edge, offset 7. -/
theorem C5_insert_documents_witness :
    C5Conclusion [("e-0", ["e-1"]), ("e-1", ["e-2"])] 7 (fun _ => 2) :=
  have hdraw : ∀ k : Nat, 0 < (2 : Nat) := fun _ => by decide
  C5_insert_documents [("e-0", ["e-1"]), ("e-1", ["e-2"])] 7 (fun _ => 2) hdraw

/-! ### Claim C6 -/

/-- C6 (counterexample): the component, ID assignment and link rows of
the end-to-end scenario are exactly as the claim describes, but the
entity rows are emitted in Python-`set` iteration order, which is
hash-seed dependent: under the legitimate set order
`["e-1", "e-0", "e-2", "e-3"]` the first entity shard holds the rows for
`e-1` and `e-2` — not the rows `e-0, e-2` that the claimed ID-order
submission `e-0,e-1,e-2,e-3` would give. -/
theorem C6_counterexample :
    make_connected_component 4 c6_draw =
        some [(0, []), (1, [0]), (2, [0]), (3, [1])] ∧
    assign_entity_ids [(0, []), (1, [0]), (2, [0]), (3, [1])] 0 =
        some ([("e-0", []), ("e-1", ["e-0"]), ("e-2", ["e-0"]),
          ("e-3", ["e-1"])], 4) ∧
    is_set_order
        (entity_id_set [("e-0", []), ("e-1", ["e-0"]), ("e-2", ["e-0"]),
          ("e-3", ["e-1"])])
        ["e-1", "e-0", "e-2", "e-3"] ∧
    c6_entity_shard (scenario_c6 ["e-1", "e-0", "e-2", "e-3"]) 0 =
        [make_row ["e-1", "Entity e-1"], make_row ["e-2", "Entity e-2"]] ∧
    c6_entity_shard (scenario_c6 ["e-1", "e-0", "e-2", "e-3"]) 0 ≠
        [make_row ["e-0", "Entity e-0"], make_row ["e-2", "Entity e-2"]] := by
  refine ⟨by decide, by decide, by decide, by decide, by decide⟩

/-- The fresh entity writer of the C6 scenario. -/
def c6_ew0 : BatchWriter :=
  BatchWriter.mk "data" ["ID", "label"] 2 0
    [[make_row ["ID", "label"]], [make_row ["ID", "label"]]]

/-- The fresh links writer of the C6 scenario. -/
def c6_lw0 : BatchWriter :=
  BatchWriter.mk "data" ["entity ID", "document ID"] 2 0
    [[make_row ["entity ID", "document ID"]],
     [make_row ["entity ID", "document ID"]]]

/-- The four entity rows of the C6 scenario, in set order `a,b,c,d`. -/
def c6_entity_rows (a b c d : String) : List (List String) :=
  [[a, "Entity " ++ a], [b, "Entity " ++ b], [c, "Entity " ++ c],
   [d, "Entity " ++ d]]

/-- The six link rows of the C6 scenario. -/
def c6_link_rows : List (List String) :=
  [["e-1", "d-0"], ["e-0", "d-0"], ["e-2", "d-1"], ["e-0", "d-1"],
   ["e-3", "d-2"], ["e-1", "d-2"]]

/-- The C6 scenario outcome that does not depend on the unspecified set
order: 4 entity rows split 2/2 across the two entity shards, the row
multiset being exactly the rows for `e-0,…,e-3`, and exactly 6 link rows
split 3/3 across the two link shards, in the stated order. -/
def C6Conclusion (order : List String) : Prop :=
  (scenario_c6 order).isSome = true ∧
  (c6_entity_shard (scenario_c6 order) 0).length = 2 ∧
  (c6_entity_shard (scenario_c6 order) 1).length = 2 ∧
  (c6_entity_shard (scenario_c6 order) 0 ++
      c6_entity_shard (scenario_c6 order) 1).Perm
    (["e-0", "e-1", "e-2", "e-3"].map
      (fun entity_id => make_row [entity_id, "Entity " ++ entity_id])) ∧
  c6_link_shard (scenario_c6 order) 0 =
    [make_row ["e-1", "d-0"], make_row ["e-2", "d-1"], make_row ["e-3", "d-2"]] ∧
  c6_link_shard (scenario_c6 order) 1 =
    [make_row ["e-0", "d-0"], make_row ["e-0", "d-1"], make_row ["e-1", "d-2"]]

/-- C6 (amended): for every possible set-iteration order the scenario
yields exactly 4 entity rows split 2/2 across the entity shards — their
multiset being the rows for `e-0,e-1,e-2,e-3`, though their order across
shards follows the unspecified set order — and exactly 6 link rows
(2 per edge × 3 edges) split 3/3 across the link shards. -/
theorem C6_scenario_amended (order : List String)
    (horder : is_set_order
      (entity_id_set [("e-0", []), ("e-1", ["e-0"]), ("e-2", ["e-0"]),
        ("e-3", ["e-1"])]) order) :
    C6Conclusion order := by
  have hset : entity_id_set [("e-0", []), ("e-1", ["e-0"]), ("e-2", ["e-0"]),
      ("e-3", ["e-1"])] = ["e-0", "e-1", "e-2", "e-3"] := by decide
  rw [hset] at horder
  have hperm : order.Perm ["e-0", "e-1", "e-2", "e-3"] := by
    rw [List.perm_ext_iff_of_nodup horder.1 (by decide)]
    intro x
    exact ⟨fun hx => horder.2.1 x hx, fun hx => horder.2.2 x hx⟩
  have hlen : order.length = 4 := by
    have := hperm.length_eq
    simpa using this
  rcases order with _ | ⟨a, _ | ⟨b, _ | ⟨c, _ | ⟨d, t⟩⟩⟩⟩
  · simp at hlen
  · simp at hlen
  · simp at hlen
  · simp at hlen
  · have ht : t = [] := by
      rw [List.length_cons, List.length_cons, List.length_cons,
        List.length_cons] at hlen
      exact List.length_eq_zero.1 (by omega)
    subst ht
    have hE : c6_ew0.add_entries (c6_entity_rows a b c d) =
        .ok (runResult c6_ew0 (c6_entity_rows a b c d)) := by
      apply add_entries_ok
      · intro e he
        simp only [c6_entity_rows, List.mem_cons, List.not_mem_nil, or_false] at he
        rcases he with rfl | rfl | rfl | rfl
        all_goals rfl
      · decide
      · decide
      · decide
    have hL : c6_lw0.add_entries c6_link_rows =
        .ok (runResult c6_lw0 c6_link_rows) := by
      apply add_entries_ok
      · intro e he
        fin_cases he <;> rfl
      · decide
      · decide
      · decide
    have hsc : scenario_c6 [a, b, c, d] =
        (match c6_ew0.add_entries (c6_entity_rows a b c d) with
          | .error _ => (none : Option (BatchWriter × BatchWriter))
          | .ok ew' =>
              match c6_lw0.add_entries c6_link_rows with
              | .error _ => none
              | .ok lw' => some (ew', lw')) := rfl
    have hsc2 : scenario_c6 [a, b, c, d] =
        some (runResult c6_ew0 (c6_entity_rows a b c d),
          runResult c6_lw0 c6_link_rows) := by
      rw [hsc, hE, hL]
    refine ⟨?_, ?_, ?_, ?_, ?_, ?_⟩
    · rw [hsc2]; rfl
    · rw [hsc2]; rfl
    · rw [hsc2]; rfl
    · rw [hsc2]
      show ([make_row [a, "Entity " ++ a], make_row [c, "Entity " ++ c]] ++
          [make_row [b, "Entity " ++ b], make_row [d, "Entity " ++ d]]).Perm _
      have hrows : ([a, b, c, d].map
          (fun entity_id => make_row [entity_id, "Entity " ++ entity_id])).Perm
            (["e-0", "e-1", "e-2", "e-3"].map
              (fun entity_id => make_row [entity_id, "Entity " ++ entity_id])) :=
        hperm.map _
      refine List.Perm.trans ?_ hrows
      show (make_row [a, "Entity " ++ a] :: make_row [c, "Entity " ++ c] ::
          make_row [b, "Entity " ++ b] :: [make_row [d, "Entity " ++ d]]).Perm
        (make_row [a, "Entity " ++ a] :: make_row [b, "Entity " ++ b] ::
          make_row [c, "Entity " ++ c] :: [make_row [d, "Entity " ++ d]])
      exact List.Perm.cons _ (List.Perm.swap _ _ _)
    · rw [hsc2]; rfl
    · rw [hsc2]; rfl

/-- Witness for `C6_scenario_amended` at the in-ID-order enumeration. -/
theorem C6_scenario_amended_witness :
    C6Conclusion ["e-0", "e-1", "e-2", "e-3"] :=
  C6_scenario_amended ["e-0", "e-1", "e-2", "e-3"] (by decide)

/-! ### Claim C3: the generated component is a tree -/

/-- The undirected graph on `Fin n` drawn from an adjacency structure:
`a` and `b` are adjacent when one of them lists the other among its
destinations (this is how `draw_network` feeds the edges to an
undirected `networkx` graph). -/
def component_graph (adj : List (Nat × List Nat)) (n : Nat) :
    SimpleGraph (Fin n) :=
  SimpleGraph.fromRel (fun a b => ∃ p ∈ adj, p.1 = a.val ∧ b.val ∈ p.2)

instance (adj : List (Nat × List Nat)) (n : Nat) :
    DecidableRel (component_graph adj n).Adj := fun a b =>
  decidable_of_iff _ (SimpleGraph.fromRel_adj _ a b).symm

/-- The parent vertex of `a`: the drawn attachment target (total
function; the `% n` is erased whenever `draw a.val < n`). -/
def pvFin (draw : Nat → Nat) {n : Nat} (a : Fin n) : Fin n :=
  ⟨draw a.val % n, Nat.mod_lt _ a.pos⟩

theorem mcc_rel_iff (n : Nat) (draw : Nat → Nat) (a b : Fin n) :
    (∃ p ∈ mcc_adj n draw, p.1 = a.val ∧ b.val ∈ p.2) ↔
      0 < a.val ∧ b.val = draw a.val := by
  constructor
  · rintro ⟨p, hp, hpa, hb⟩
    rcases List.mem_map.1 hp with ⟨i, _, hpi⟩
    subst hpi
    simp only at hpa hb
    subst hpa
    by_cases h0 : a.val = 0
    · rw [if_pos h0] at hb
      simp at hb
    · rw [if_neg h0] at hb
      simp only [List.mem_singleton] at hb
      exact ⟨Nat.pos_of_ne_zero h0, hb⟩
  · rintro ⟨ha, hb⟩
    refine ⟨(a.val, [draw a.val]), ?_, rfl, by simp [hb]⟩
    refine List.mem_map.2 ⟨a.val, List.mem_range.2 a.isLt, ?_⟩
    rw [if_neg (by omega)]

theorem mcc_graph_adj_iff (n : Nat) (draw : Nat → Nat) (a b : Fin n) :
    (component_graph (mcc_adj n draw) n).Adj a b ↔
      a ≠ b ∧ ((0 < a.val ∧ b.val = draw a.val) ∨
        (0 < b.val ∧ a.val = draw b.val)) := by
  rw [component_graph, SimpleGraph.fromRel_adj, mcc_rel_iff, mcc_rel_iff]

/-- Every vertex whose index is positive is adjacent to its parent. -/
theorem mcc_parent_adj (n : Nat) (draw : Nat → Nat)
    (hdraw : ∀ i, 0 < i → i < n → draw i < i) (a : Fin n) (ha : 0 < a.val) :
    (component_graph (mcc_adj n draw) n).Adj a (pvFin draw a) := by
  have hlt : draw a.val < a.val := hdraw a.val ha a.isLt
  have hmod : draw a.val % n = draw a.val :=
    Nat.mod_eq_of_lt (lt_trans hlt a.isLt)
  rw [mcc_graph_adj_iff]
  constructor
  · intro hc
    have := congrArg Fin.val hc
    simp only [pvFin, hmod] at this
    omega
  · left
    exact ⟨ha, by simp [pvFin, hmod]⟩

/-- The only neighbour of `a` strictly below it is its parent. -/
theorem mcc_below_unique (n : Nat) (draw : Nat → Nat)
    (hdraw : ∀ i, 0 < i → i < n → draw i < i) (a x : Fin n)
    (hadj : (component_graph (mcc_adj n draw) n).Adj a x) (hx : x < a) :
    x = pvFin draw a := by
  rw [mcc_graph_adj_iff] at hadj
  have hxa : x.val < a.val := hx
  rcases hadj.2 with ⟨ha, hval⟩ | ⟨hx0, hval⟩
  · have hlt : draw a.val < a.val := hdraw a.val ha a.isLt
    apply Fin.ext
    simp [pvFin, hval, Nat.mod_eq_of_lt (lt_trans hlt a.isLt)]
  · have : draw x.val < x.val := hdraw x.val hx0 x.isLt
    omega

theorem mcc_reachable (n : Nat) (draw : Nat → Nat) (hn : 0 < n)
    (hdraw : ∀ i, 0 < i → i < n → draw i < i) (a : Fin n) :
    (component_graph (mcc_adj n draw) n).Reachable a ⟨0, hn⟩ := by
  have key : ∀ (k : Nat) (a : Fin n), a.val = k →
      (component_graph (mcc_adj n draw) n).Reachable a ⟨0, hn⟩ := by
    intro k
    induction k using Nat.strong_induction_on with
    | _ k ih =>
      intro a hak
      by_cases h0 : a.val = 0
      · have : a = ⟨0, hn⟩ := Fin.ext h0
        rw [this]
      · have ha : 0 < a.val := Nat.pos_of_ne_zero h0
        have hlt : draw a.val < a.val := hdraw a.val ha a.isLt
        have hadj := mcc_parent_adj n draw hdraw a ha
        refine hadj.reachable.trans (ih (pvFin draw a).val ?_ _ rfl)
        simp only [pvFin]
        rw [Nat.mod_eq_of_lt (lt_trans hlt a.isLt)]
        omega
  exact key a.val a rfl

theorem mcc_connected (n : Nat) (draw : Nat → Nat) (hn : 0 < n)
    (hdraw : ∀ i, 0 < i → i < n → draw i < i) :
    (component_graph (mcc_adj n draw) n).Connected := by
  rw [SimpleGraph.connected_iff]
  exact ⟨fun a b => (mcc_reachable n draw hn hdraw a).trans
    (mcc_reachable n draw hn hdraw b).symm, ⟨⟨0, hn⟩⟩⟩

theorem mcc_edge_iff (n : Nat) (draw : Nat → Nat)
    (hdraw : ∀ i, 0 < i → i < n → draw i < i) (e : Sym2 (Fin n)) :
    e ∈ (component_graph (mcc_adj n draw) n).edgeSet ↔
      ∃ a : Fin n, 0 < a.val ∧ e = s(a, pvFin draw a) := by
  induction e using Sym2.ind with
  | _ x y =>
    rw [SimpleGraph.mem_edgeSet, mcc_graph_adj_iff]
    constructor
    · rintro ⟨hne, ⟨hx, hval⟩ | ⟨hy, hval⟩⟩
      · refine ⟨x, hx, ?_⟩
        have : y = pvFin draw x := by
          apply Fin.ext
          have hlt : draw x.val < x.val := hdraw x.val hx x.isLt
          simp [pvFin, hval, Nat.mod_eq_of_lt (lt_trans hlt x.isLt)]
        rw [this]
      · refine ⟨y, hy, ?_⟩
        have : x = pvFin draw y := by
          apply Fin.ext
          have hlt : draw y.val < y.val := hdraw y.val hy y.isLt
          simp [pvFin, hval, Nat.mod_eq_of_lt (lt_trans hlt y.isLt)]
        rw [this, Sym2.eq_swap]
    · rintro ⟨a, ha, he⟩
      have hlt : draw a.val < a.val := hdraw a.val ha a.isLt
      have hpv : (pvFin draw a).val = draw a.val := by
        simp [pvFin, Nat.mod_eq_of_lt (lt_trans hlt a.isLt)]
      have hne : a ≠ pvFin draw a := by
        intro hc
        have := congrArg Fin.val hc
        omega
      rcases Sym2.eq_iff.1 he with ⟨hxa, hy⟩ | ⟨hx, hya⟩
      · subst hxa
        refine ⟨by rw [hy]; exact hne, Or.inl ⟨ha, by rw [hy, hpv]⟩⟩
      · subst hya
        refine ⟨by rw [hx]; exact (Ne.symm hne), Or.inr ⟨ha, by rw [hx, hpv]⟩⟩

theorem mcc_edgeFinset_card (n : Nat) (draw : Nat → Nat) (hn : 0 < n)
    (hdraw : ∀ i, 0 < i → i < n → draw i < i) :
    (component_graph (mcc_adj n draw) n).edgeFinset.card = n - 1 := by
  have himg : (component_graph (mcc_adj n draw) n).edgeFinset =
      (Finset.univ.filter (fun a : Fin n => 0 < a.val)).image
        (fun a => s(a, pvFin draw a)) := by
    ext e
    rw [SimpleGraph.mem_edgeFinset, mcc_edge_iff n draw hdraw, Finset.mem_image]
    constructor
    · rintro ⟨a, ha, he⟩
      exact ⟨a, Finset.mem_filter.2 ⟨Finset.mem_univ a, ha⟩, he.symm⟩
    · rintro ⟨a, ha, he⟩
      exact ⟨a, (Finset.mem_filter.1 ha).2, he.symm⟩
  rw [himg, Finset.card_image_of_injOn]
  · have hsplit := Finset.filter_card_add_filter_neg_card_eq_card
      (s := (Finset.univ : Finset (Fin n))) (fun a : Fin n => 0 < a.val)
    have hneg : (Finset.univ.filter (fun a : Fin n => ¬ 0 < a.val)) =
        {(⟨0, hn⟩ : Fin n)} := by
      ext a
      simp only [Finset.mem_filter, Finset.mem_univ, true_and,
        Finset.mem_singleton]
      constructor
      · intro h
        exact Fin.ext (show a.val = (0 : Nat) by omega)
      · intro h
        rw [h]
        exact fun hcon => Nat.lt_irrefl 0 hcon
    rw [hneg, Finset.card_singleton, Finset.card_univ, Fintype.card_fin] at hsplit
    omega
  · intro a ha b hb hab
    have ha' := (Finset.mem_filter.1 ha).2
    have hb' := (Finset.mem_filter.1 hb).2
    have hpa : (pvFin draw a).val = draw a.val :=
      Nat.mod_eq_of_lt (lt_trans (hdraw a.val ha' a.isLt) a.isLt)
    have hpb : (pvFin draw b).val = draw b.val :=
      Nat.mod_eq_of_lt (lt_trans (hdraw b.val hb' b.isLt) b.isLt)
    have hlta : draw a.val < a.val := hdraw a.val ha' a.isLt
    have hltb : draw b.val < b.val := hdraw b.val hb' b.isLt
    rcases Sym2.eq_iff.1 hab with ⟨h1, _⟩ | ⟨h1, h2⟩
    · exact h1
    · exfalso
      have e1 := congrArg Fin.val h1
      have e2 := congrArg Fin.val h2
      rw [hpb] at e1
      rw [hpa] at e2
      omega

theorem mcc_acyclic (n : Nat) (draw : Nat → Nat)
    (hdraw : ∀ i, 0 < i → i < n → draw i < i) :
    (component_graph (mcc_adj n draw) n).IsAcyclic := by
  intro v c hc
  have hvmem : v ∈ c.support.toFinset :=
    List.mem_toFinset.2 c.start_mem_support
  have hSne : c.support.toFinset.Nonempty := ⟨v, hvmem⟩
  have hm_mem : c.support.toFinset.max' hSne ∈ c.support :=
    List.mem_toFinset.1 (Finset.max'_mem _ hSne)
  set m : Fin n := c.support.toFinset.max' hSne with hm
  have hmax : ∀ x ∈ c.support, x ≤ m :=
    fun x hx => Finset.le_max' _ x (List.mem_toFinset.2 hx)
  have hc' : (c.rotate hm_mem).IsCycle := hc.rotate hm_mem
  have hsup : ∀ x ∈ (c.rotate hm_mem).support, x ≤ m := by
    intro x hx
    rw [SimpleGraph.Walk.support_eq_cons] at hx
    rcases List.mem_cons.1 hx with h | h
    · rw [h]
    · exact hmax x (List.mem_of_mem_tail
        (((SimpleGraph.Walk.support_rotate c hm_mem).mem_iff).1 h))
  obtain ⟨u2, hadj, p, hp⟩ :=
    SimpleGraph.Walk.not_nil_iff.1 hc'.not_nil
  rw [hp] at hc' hsup
  rw [SimpleGraph.Walk.cons_isCycle_iff] at hc'
  obtain ⟨hpath, hedge⟩ := hc'
  have hmu : m ≠ u2 := hadj.ne
  obtain ⟨w, hadj2, q, hq⟩ :=
    SimpleGraph.Walk.exists_eq_cons_of_ne hmu p.reverse
  have hmem_edge : s(m, w) ∈ p.edges := by
    have h1 : s(m, w) ∈ p.reverse.edges := by
      rw [hq, SimpleGraph.Walk.edges_cons]
      exact List.mem_cons_self _ _
    rwa [SimpleGraph.Walk.edges_reverse, List.mem_reverse] at h1
  have hw_sup : w ∈ (SimpleGraph.Walk.cons hadj p).support := by
    rw [SimpleGraph.Walk.support_cons]
    exact List.mem_cons_of_mem _ (p.snd_mem_support_of_mem_edges hmem_edge)
  have hu_sup : u2 ∈ (SimpleGraph.Walk.cons hadj p).support := by
    rw [SimpleGraph.Walk.support_cons]
    exact List.mem_cons_of_mem _ p.start_mem_support
  have hwm : w < m := lt_of_le_of_ne (hsup w hw_sup) hadj2.ne.symm
  have hum : u2 < m := lt_of_le_of_ne (hsup u2 hu_sup) hmu.symm
  have hw_eq : w = pvFin draw m := mcc_below_unique n draw hdraw m w hadj2 hwm
  have hu_eq : u2 = pvFin draw m := mcc_below_unique n draw hdraw m u2 hadj hum
  have hwu : w = u2 := hw_eq.trans hu_eq.symm
  rw [hwu] at hmem_edge
  exact hedge hmem_edge

theorem mcc_isTree (n : Nat) (draw : Nat → Nat) (hn : 0 < n)
    (hdraw : ∀ i, 0 < i → i < n → draw i < i) :
    (component_graph (mcc_adj n draw) n).IsTree :=
  ⟨mcc_connected n draw hn hdraw, mcc_acyclic n draw hdraw⟩

theorem mcc_adj_getD (n : Nat) (draw : Nat → Nat) (i : Nat) (hi : i < n) :
    (mcc_adj n draw).getD i (0, []) = (i, if i = 0 then [] else [draw i]) := by
  unfold mcc_adj
  rw [List.getD_eq_getElem?_getD, List.getElem?_map, List.getElem?_range hi]
  rfl

theorem mcc_edge_sum (draw : Nat → Nat) :
    ∀ n : Nat, ((mcc_adj n draw).map (fun p => p.2.length)).sum = n - 1 := by
  intro n
  induction n with
  | zero => rfl
  | succ n ih =>
    unfold mcc_adj at ih ⊢
    rw [List.range_succ, List.map_append, List.map_append, List.sum_append, ih]
    simp only [List.map_cons, List.map_nil, List.sum_cons, List.sum_nil]
    by_cases h0 : n = 0
    · rw [if_pos h0, h0]
      rfl
    · rw [if_neg h0]
      simp only [List.length_cons, List.length_nil]
      omega

/-- The component contract of claim C3 for `n` nodes and an attachment
draw sequence: `make_connected_component n` succeeds and produces
`mcc_adj n draw`; its key list is exactly `0..n-1` in order; node 0 has
no predecessor and every node `i ≥ 1` records exactly one predecessor
strictly below `i`; the structure has exactly `n-1` edges (both as the
sum of the destination-list lengths and as the edge count of the induced
graph); the induced graph on the `n` nodes is a tree (connected and
acyclic, hence a single component with no isolated node); and a
non-positive requested size `m` fails. -/
def C3Conclusion (n : Nat) (draw : Nat → Nat) (m : Int) : Prop :=
  make_connected_component (n : Int) draw = some (mcc_adj n draw) ∧
  (mcc_adj n draw).map Prod.fst = List.range n ∧
  allOf (List.range n) (fun i =>
    (mcc_adj n draw).getD i (0, []) = (i, if i = 0 then [] else [draw i]) ∧
    (0 < i → ((mcc_adj n draw).getD i (0, [])).2.length = 1 ∧
      ((mcc_adj n draw).getD i (0, [])).2.getD 0 0 < i)) ∧
  ((mcc_adj n draw).map (fun p => p.2.length)).sum = n - 1 ∧
  (component_graph (mcc_adj n draw) n).edgeFinset.card = n - 1 ∧
  (component_graph (mcc_adj n draw) n).IsTree ∧
  make_connected_component m draw = none

/-- C3: for every positive `n` and every sequence of attachment draws in
range (`draw i < i` models `random.randint(0, i-1)`), the generated
component has key set `0..n-1`, node 0 without predecessors, one
below-`i` predecessor per node `i ≥ 1`, exactly `n-1` edges, and forms a
single connected acyclic component (a tree); a non-positive size aborts
with no structure built. -/
theorem C3_component_is_tree (n : Nat) (hn : 0 < n) (draw : Nat → Nat)
    (hdraw : ∀ i, 0 < i → i < n → draw i < i) (m : Int) (hm : m ≤ 0) :
    C3Conclusion n draw m := by
  refine ⟨?_, ?_, ?_, mcc_edge_sum draw n,
    mcc_edgeFinset_card n draw hn hdraw, mcc_isTree n draw hn hdraw, ?_⟩
  · unfold make_connected_component
    rw [if_pos (by exact_mod_cast hn), Int.toNat_natCast]
  · unfold mcc_adj
    rw [List.map_map]
    have : (Prod.fst ∘ fun i => ((i : Nat), if i = 0 then [] else [draw i])) = id := by
      funext i
      rfl
    rw [this, List.map_id]
  · rw [allOf_iff]
    intro i hi
    have hilt := List.mem_range.1 hi
    refine ⟨mcc_adj_getD n draw i hilt, ?_⟩
    intro hipos
    rw [mcc_adj_getD n draw i hilt]
    simp only [if_neg (by omega : ¬ i = 0)]
    exact ⟨rfl, by simpa using hdraw i hipos hilt⟩
  · unfold make_connected_component
    rw [if_neg (by omega)]

/-- The attachment draws of the C3 witness: each node attaches to its
predecessor, giving the chain 1→0, 2→1, 3→2. -/
def c3_draw : Nat → Nat := fun i => i - 1

/-- Witness for `C3_component_is_tree` with 4 nodes. -/
theorem C3_component_is_tree_witness :
    (∀ i, 0 < i → i < 4 → c3_draw i < i) ∧ C3Conclusion 4 c3_draw (-1) :=
  have hdraw : ∀ i, 0 < i → i < 4 → c3_draw i < i :=
    fun i h1 _ => Nat.sub_lt h1 Nat.one_pos
  ⟨hdraw, C3_component_is_tree 4 (by decide) c3_draw hdraw (-1) (by decide)⟩

end DataGenerator
